import Mathlib

/-!
Shallow embedding of the Discogs → Udio tag-builder pipeline
(`src/udio_tools.py` and its near-duplicate revision in `src/app.py`).

Python strings are modelled as `List Char`; each Python helper is
translated into an executable Lean function over that representation.
-/

namespace Udio

/-- Python string type, modelled as a list of characters. -/
abbrev Str := List Char

/-- ASCII whitespace recognised by Python's `str.strip` / regex `\s`. -/
def isWS (c : Char) : Bool :=
  c = ' ' || c = '\t' || c = '\n' || c = '\r' || c = '\x0b' || c = '\x0c'

/-- Python `str.lower` on one character (ASCII range, which is all the
pipeline ever sees). -/
def lowChar (c : Char) : Char :=
  if 65 ≤ c.toNat ∧ c.toNat ≤ 90 then Char.ofNat (c.toNat + 32) else c

/-- Python `str.lower`. -/
def lower (cs : Str) : Str := cs.map lowChar

/-- Python `str.lstrip()`. -/
def lstrip (cs : Str) : Str := cs.dropWhile isWS

/-- Python `str.rstrip()`. -/
def rstrip (cs : Str) : Str := (cs.reverse.dropWhile isWS).reverse

/-- Python `str.strip()`. -/
def strip (cs : Str) : Str := rstrip (lstrip cs)

/-- Scanner for Python `re.sub(r"\s*&\s*", " and ", t)`.
`mode = true` means the scanner sits just after a replaced `&` and is
still consuming the trailing `\s*` of that match; `pend` buffers a
whitespace run that may yet become the leading `\s*` of a match
(invariant: `mode = true → pend = []`). -/
def subAmpGo : Bool → Str → Str → Str
  | _, pend, [] => pend
  | mode, pend, c :: cs =>
    if c = '&' then ' ' :: 'a' :: 'n' :: 'd' :: ' ' :: subAmpGo true [] cs
    else if isWS c then
      if mode then subAmpGo true [] cs
      else subAmpGo false (pend ++ [c]) cs
    else pend ++ c :: subAmpGo false [] cs

/-- Python `re.sub(r"\s*&\s*", " and ", t)`: every maximal run of
optional whitespace around an `&` is replaced by the literal `" and "`,
scanning left to right. -/
def subAmp (cs : Str) : Str := subAmpGo false [] cs

/-- Python `re.sub(r"[()/]", " ", t)`: parentheses and slashes become a
single space each. -/
def subSlash (cs : Str) : Str :=
  cs.map (fun c => if c = '(' ∨ c = ')' ∨ c = '/' then ' ' else c)

/-- Scanner for Python `re.sub(r"\s+", " ", t)`; `inWS` records whether
the previous character was whitespace (whose run already emitted its
single space). -/
def collapseGo : Bool → Str → Str
  | _, [] => []
  | inWS, c :: cs =>
    if isWS c then
      if inWS then collapseGo true cs else ' ' :: collapseGo true cs
    else c :: collapseGo false cs

/-- Python `re.sub(r"\s+", " ", t)`: every maximal whitespace run
collapses to a single space. -/
def collapseWS (cs : Str) : Str := collapseGo false cs

/-- The substitution pipeline `clean_tokens` applies to one (already
stripped, lower-cased, non-empty) token:
`t = re.sub(r"\s*&\s*", " and ", t); t = re.sub(r"[()/]", " ", t);
t = re.sub(r"\s+", " ", t).strip()`. -/
def normTail (cs : Str) : Str :=
  strip (collapseWS (subSlash (subAmp cs)))

/-- Embedding of `clean_tokens` from `src/udio_tools.py`, with the `seen` set and the
`cleaned` accumulator of the Python loop made explicit (`seen` is the
list of tokens already emitted; membership is the only use the source
makes of the set). -/
def cleanGo (seen : List Str) : List Str → List Str
  | [] => []
  | t :: rest =>
    let s := lower (strip t)
    if s = [] then cleanGo seen rest
    else
      let u := normTail s
      if u ∈ seen then cleanGo seen rest
      else u :: cleanGo (u :: seen) rest

/-- Embedding of `clean_tokens` from `src/udio_tools.py` (normalize, drop tokens that
are empty before substitution, deduplicate first-seen, in one pass). -/
def clean_tokens (tokens : List Str) : List Str :=
  cleanGo [] tokens

/-- Per-token normalization of the `app.py` revision's `clean_tokens`
first loop: strip + lower, drop if the result is empty, then the three
substitutions. -/
def normTok (t : Str) : Option Str :=
  let s := lower (strip t)
  if s = [] then none else some (normTail s)

/-- First-seen deduplication (the `seen`/`out` second loop of the
`app.py` revision's `clean_tokens`). -/
def dedupGo (seen : List Str) : List Str → List Str
  | [] => []
  | t :: rest =>
    if t ∈ seen then dedupGo seen rest
    else t :: dedupGo (t :: seen) rest

/-- Embedding of `clean_tokens` from `src/app.py`: normalize all tokens into a
`cleaned` list first, then deduplicate preserving first-seen order. -/
def clean_tokens_app (tokens : List Str) : List Str :=
  dedupGo [] (tokens.filterMap normTok)

/-- The fields of a Discogs search result that the pipeline consumes:
`r["id"]`, `r["title"]`, `r["community"]["have"]` (`haveCount` because
`have` is reserved in Lean). -/
structure Candidate where
  id : Nat
  title : Str
  haveCount : Nat
deriving DecidableEq, Repr

/-- Embedding of `score_result` from `src/udio_tools.py`: +3 when the input title is
non-empty and prefixes the lower-cased candidate title, +2 when the
non-empty input artist occurs inside it, plus `have // 100`. -/
def score_result (r : Candidate) (title_low artist_low : Str) : Nat :=
  let ttl := lower r.title
  (if title_low ≠ [] ∧ title_low <+: ttl then 3 else 0)
    + (if artist_low ≠ [] ∧ artist_low <:+: ttl then 2 else 0)
    + r.haveCount / 100

/-- Embedding of `score_result` from `src/app.py`: identical except that the `+3`
branch tests only `ttl.startswith(title_low)`, with no non-emptiness
guard on the title. -/
def score_result_app (r : Candidate) (title_low artist_low : Str) : Nat :=
  let ttl := lower r.title
  (if title_low <+: ttl then 3 else 0)
    + (if artist_low ≠ [] ∧ artist_low <:+: ttl then 2 else 0)
    + r.haveCount / 100

/-- Python `max(results, key=f)`: the accumulator is replaced only on a
strictly larger key, so the first element attaining the maximum wins. -/
def maxBy (f : Candidate → Nat) (best : Candidate) : List Candidate → Candidate
  | [] => best
  | x :: rest => if f x > f best then maxBy f x rest else maxBy f best rest

/-- Embedding of `choose_best` from `src/udio_tools.py`. -/
def choose_best (results : List Candidate) (title artist : Str) : Option Candidate :=
  match results with
  | [] => none
  | r :: rest => some (maxBy (fun c => score_result c (lower title) (lower artist)) r rest)

/-- Embedding of `choose_best` from `src/app.py` (same shape, but over the `app.py`
revision's `score_result`). -/
def choose_best_app (results : List Candidate) (title artist : Str) : Option Candidate :=
  match results with
  | [] => none
  | r :: rest => some (maxBy (fun c => score_result_app c (lower title) (lower artist)) r rest)

/-- A JSON `year` field as `build_tag_list` can see it: absent (or
null), an integer, or a string. -/
inductive PyYear
  | absent
  | int (n : Nat)
  | str (s : Str)
deriving DecidableEq, Repr

/-- The fields of a Discogs release JSON that `build_tag_list` consumes;
`formats` and `labels` already hold the extracted `"name"` values. -/
structure ReleaseJson where
  styles : List Str
  genres : List Str
  year : PyYear
  country : Str
  formats : List Str
  labels : List Str
deriving DecidableEq, Repr

/-- Decimal digits of `n`, fuel-indexed so that it is structural. -/
def natToCharsAux : Nat → Nat → Str
  | 0, _ => []
  | fuel + 1, n =>
    if n < 10 then [Char.ofNat (48 + n)]
    else natToCharsAux fuel (n / 10) ++ [Char.ofNat (48 + n % 10)]

/-- Python `str(n)` for a natural number. -/
def natToChars (n : Nat) : Str := natToCharsAux (n + 1) n

/-- The `year` local of `build_tag_list`:
`str(rel_json.get("year","")) if rel_json.get("year") else ""` —
a falsy raw value (absent, `0`, `""`) yields the empty string. -/
def yearStr : PyYear → Str
  | .absent => []
  | .int n => if n = 0 then [] else natToChars n
  | .str s => if s = [] then [] else s

/-- The `tokens` list assembled by `build_tag_list` before cleaning:
styles, genres, the year string if truthy, the country if truthy,
then formats and labels. -/
def tokensOf (r : ReleaseJson) : List Str :=
  r.styles ++ r.genres
    ++ (if yearStr r.year ≠ [] then [yearStr r.year] else [])
    ++ (if r.country ≠ [] then [r.country] else [])
    ++ r.formats ++ r.labels

/-- Embedding of `build_tag_list` from `src/udio_tools.py` (the `app.py` revision is
textually identical): clean the assembled tokens, keep the first
`max_tags`. -/
def build_tag_list (r : ReleaseJson) (max_tags : Nat) : List Str :=
  (clean_tokens (tokensOf r)).take max_tags

/-- Python `str.isdigit()` (ASCII): non-empty and all digits. -/
def isdigitStr (cs : Str) : Bool := !cs.isEmpty && cs.all Char.isDigit

/-- Python `year.rstrip("s")`: remove every trailing `'s'`. -/
def rstripS (cs : Str) : Str := (cs.reverse.dropWhile (fun c => c == 's')).reverse

/-- The `year` request parameter computed by `discogs_search` in
`src/udio_tools.py`: only for a truthy year; trailing `s` stripped; kept
only if the remainder is all digits. -/
def discogs_search_yearParam (year : Str) : Option Str :=
  if year = [] then none
  else
    let y := rstripS year
    if isdigitStr y then some y else none

/-- The `year` request parameter computed by `discogs_search` in
`src/app.py`: any truthy year is passed verbatim. -/
def discogs_search_yearParam_app (year : Str) : Option Str :=
  if year = [] then none else some year

/-- Python `", ".join(tags)`. -/
def joinComma : List Str → Str
  | [] => []
  | [t] => t
  | t :: rest => t ++ ',' :: ' ' :: joinComma rest

/-- Python `s.strip(" -")`. -/
def stripDashSpace (cs : Str) : Str :=
  let p := fun c => c == ' ' || c == '-'
  ((cs.dropWhile p).reverse.dropWhile p).reverse

/-- One input record: the `title`, `artist`, `year` columns of a row. -/
abbrev InputRecord := Str × Str × Str

/-- The two external Discogs calls, as record-indexed oracles that
either return a value or raise (`Except.error` carries `str(e)`). -/
structure Oracle where
  search : Str → Str → Str → Except Str (List Candidate)
  fetch : Nat → Except Str ReleaseJson

/-- One row of the output table. -/
structure OutputRow where
  input_title : Str
  udio_tags : Str
deriving DecidableEq, Repr

/-- The body of the per-record loop of `run_udio_tag_builder`
(`src/udio_tools.py`): search, rank, fetch + derive, with the whole
`try` block collapsing to an `ERROR:` sentinel on either external
failure, and `NO_MATCH` when no candidate is chosen. -/
def processRecord (O : Oracle) (max_tags : Nat) (rec : InputRecord) : OutputRow :=
  let title := rec.1
  let artist := rec.2.1
  let year := rec.2.2
  let label := stripDashSpace (title ++ ' ' :: '-' :: ' ' :: artist)
  let tags : List Str :=
    match O.search title artist year with
    | .error e => ["ERROR: ".data ++ e]
    | .ok results =>
      match choose_best results title artist with
      | none => ["NO_MATCH".data]
      | some best =>
        match O.fetch best.id with
        | .error e => ["ERROR: ".data ++ e]
        | .ok rel => build_tag_list rel max_tags
  ⟨label, joinComma tags⟩

/-- The accumulator loop of `run_udio_tag_builder`: `out_rows = []`,
then one `append` per record. -/
def runLoop (O : Oracle) (max_tags : Nat) : List InputRecord → List OutputRow → List OutputRow
  | [], out => out
  | r :: rest, out => runLoop O max_tags rest (out ++ [processRecord O max_tags r])

/-- The batch-processing core of `run_udio_tag_builder`
(`src/udio_tools.py`): the ingested records to the output rows. -/
def run_udio_tag_builder (O : Oracle) (max_tags : Nat) (recs : List InputRecord) : List OutputRow :=
  runLoop O max_tags recs []

/-- The tail pattern `(?:,\s*(?P<year>\d{4}s?))?$` (flag `re.I`, so the
decade suffix may be `s` or `S`), shared by both line regexes of
`parse_line_natively` (`src/app.py`). Returns the captured year
(`m.group('year') or ""`) when the remaining characters match to the end
of the line, `none` when they do not. -/
def tailYear : Str → Option Str
  | [] => some []
  | ',' :: rest =>
    match rest.dropWhile isWS with
    | a :: b :: c :: d :: rest2 =>
      if a.isDigit && b.isDigit && c.isDigit && d.isDigit then
        match rest2 with
        | [] => some [a, b, c, d]
        | [e] => if e = 's' || e = 'S' then some [a, b, c, d, e] else none
        | _ => none
      else none
    | _ => none
  | _ => none

/-- Lazy `(?P<artist>.+?)` expansion: the artist capture grows one
character at a time until the rest of the line matches `tailYear`. -/
def artistLoop (acc : Str) : Str → Option (Str × Str)
  | [] => (tailYear []).map (fun y => (acc, y))
  | c :: rest2 =>
    match tailYear (c :: rest2) with
    | some y => some (acc, y)
    | none => artistLoop (acc ++ [c]) rest2

/-- Pattern `(?P<artist>.+?)(?:,\s*(?P<year>\d{4}s?))?$`: the artist needs at
least one character. -/
def artistMatch : Str → Option (Str × Str)
  | [] => none
  | c :: rest => artistLoop [c] rest

/-- Greedy-with-backtracking `\s*` after the hyphen: try the position
after the whole whitespace run first, then give characters back one at a
time (regex backtracking order). `j` counts how many characters of the
run are still consumed. -/
def hyphenTailGo (r2 : Str) : Nat → Option (Str × Str)
  | 0 => artistMatch r2
  | j + 1 =>
    match artistMatch (r2.drop (j + 1)) with
    | some r => some r
    | none => hyphenTailGo r2 j

/-- Pattern `\s*(?P<artist>.+?)(?:,\s*(?P<year>\d{4}s?))?$` after a matched
hyphen. -/
def hyphenTail (r2 : Str) : Option (Str × Str) :=
  hyphenTailGo r2 (r2.takeWhile isWS).length

/-- Try the split `title · \s*[-–]\s* · tail` with the title capture
fixed: skip whitespace, demand a hyphen or en-dash, then match the tail
(with its backtracking `\s*`). -/
def tryHyphenAt (title rest : Str) : Option (Str × Str × Str) :=
  match rest.dropWhile isWS with
  | c :: r2 =>
    if c = '-' ∨ c = '–' then (hyphenTail r2).map (fun p => (title, p.1, p.2))
    else none
  | [] => none

/-- Lazy `(?P<title>.+?)` expansion for the hyphen pattern
`^(?P<title>.+?)\s*[-–]\s*(?P<artist>.+?)(?:,\s*(?P<year>\d{4}s?))?$`. -/
def hyphenGo (title : Str) : Str → Option (Str × Str × Str)
  | [] => none
  | c :: rest =>
    match tryHyphenAt (title ++ [c]) rest with
    | some r => some r
    | none => hyphenGo (title ++ [c]) rest

/-- The first regex of `parse_line_natively`. -/
def hyphenMatch (line : Str) : Option (Str × Str × Str) := hyphenGo [] line

/-- Try the split `title · " by " · tail` with the title capture fixed
(`re.I`: the `by` may be any case). -/
def tryByAt (title rest : Str) : Option (Str × Str × Str) :=
  match rest with
  | ' ' :: b :: y :: ' ' :: r =>
    if (b = 'b' ∨ b = 'B') ∧ (y = 'y' ∨ y = 'Y') then
      (artistMatch r).map (fun p => (title, p.1, p.2))
    else none
  | _ => none

/-- Lazy `(?P<title>.+?)` expansion for the second pattern
`^(?P<title>.+?) by (?P<artist>.+?)(?:,\s*(?P<year>\d{4}s?))?$`. -/
def byGo (title : Str) : Str → Option (Str × Str × Str)
  | [] => none
  | c :: rest =>
    match tryByAt (title ++ [c]) rest with
    | some r => some r
    | none => byGo (title ++ [c]) rest

/-- The second regex of `parse_line_natively`. -/
def byMatch (line : Str) : Option (Str × Str × Str) := byGo [] line

/-- Split a string at its last comma, `none` when it has no comma. -/
def splitLastComma (cs : Str) : Option (Str × Str) :=
  match cs.reverse.dropWhile (fun c => c != ',') with
  | ',' :: before => some (before.reverse, (cs.reverse.takeWhile (fun c => c != ',')).reverse)
  | _ => none

/-- Embedding of `parse_line_natively` from `src/app.py`: hyphen pattern, then the
`by` pattern, then `line.rsplit(",", 2)` kept only when it yields three
fields; `None` otherwise. -/
def parse_line_natively (line : Str) : Option (Str × Str × Str) :=
  match hyphenMatch line with
  | some (t, a, y) => some (strip t, strip a, y)
  | none =>
    match byMatch line with
    | some (t, a, y) => some (strip t, strip a, y)
    | none =>
      match splitLastComma line with
      | some (rest1, p3) =>
        match splitLastComma rest1 with
        | some (p1, p2) => some (strip p1, strip p2, strip p3)
        | none => none
      | none => none

/-- Python `line.split(",")`. -/
def splitComma : Str → List Str
  | [] => [[]]
  | c :: cs =>
    if c = ',' then [] :: splitComma cs
    else
      match splitComma cs with
      | p :: ps => (c :: p) :: ps
      | [] => [[c]]

/-- The per-line mapping of `read_manual_paste` (`src/udio_tools.py`):
split on every comma, strip the parts, keep the first three (missing
parts default to `""`). -/
def read_manual_paste_line (line : Str) : InputRecord :=
  let parts := (splitComma line).map strip
  (parts.getD 0 [], parts.getD 1 [], parts.getD 2 [])

/-- Embedding of `read_manual_paste` (`src/udio_tools.py`) over the already-split
lines of the pasted text: blank lines are skipped, each remaining line
becomes one record. -/
def read_manual_paste (lines : List Str) : List InputRecord :=
  (lines.filter (fun l => !(strip l).isEmpty)).map read_manual_paste_line

/-- The Ranker scoring formula exactly as the spec states it (its
scoring bullets, transcribed independently of the code): +3 when the
input title is non-empty and the lower-cased candidate title starts
with it, +2 when the non-empty input artist occurs anywhere inside it,
plus `floor(have / 100)`. -/
def rankerScoreSpec (r : Candidate) (title_low artist_low : Str) : Nat :=
  (if title_low ≠ [] ∧ title_low <+: lower r.title then 3 else 0)
    + (if artist_low ≠ [] ∧ artist_low <:+: lower r.title then 2 else 0)
    + r.haveCount / 100

end Udio

namespace Udio

/-! ## Helper lemmas -/

theorem toNat_ofNat_small (n : Nat) (h : n < 55296) : (Char.ofNat n).toNat = n := by
  unfold Char.ofNat Char.ofNatAux
  rw [dif_pos (Or.inl h)]
  rfl

theorem lowChar_idem (c : Char) : lowChar (lowChar c) = lowChar c := by
  unfold lowChar
  by_cases h : 65 ≤ c.toNat ∧ c.toNat ≤ 90
  · rw [if_pos h]
    have ht : (Char.ofNat (c.toNat + 32)).toNat = c.toNat + 32 :=
      toNat_ofNat_small _ (by omega)
    rw [if_neg (by omega)]
  · rw [if_neg h, if_neg h]

theorem lower_idem (cs : Str) : lower (lower cs) = lower cs := by
  simp [lower, Function.comp, lowChar_idem]

theorem map_eq_self_of_mem {f : Char → Char} {l : Str} (h : ∀ c ∈ l, f c = c) :
    l.map f = l := by
  induction l with
  | nil => rfl
  | cons c t ih =>
    simp only [List.map_cons, h c (by simp), ih fun x hx => h x (by simp [hx])]

/-! ## Claim theorems -/

/-- C2 counterexample: the `app.py` revision's `score_result` gives a
candidate 3 points from the title rule even when the input title is
empty (every string starts with the empty string), where the claimed
formula gives 0. -/
theorem C2_counterexample :
    score_result_app ⟨7, "x".data, 0⟩ [] [] = 3
      ∧ rankerScoreSpec ⟨7, "x".data, 0⟩ [] [] = 0 := by
  constructor <;> decide

/-- C2 amended: the `udio_tools.py` `score_result` computes exactly the
claimed sum; the `app.py` revision computes the claimed sum plus an
extra 3 whenever the input title is empty (its title rule has no
non-emptiness guard). -/
theorem C2_amended (r : Candidate) (title_low artist_low : Str) :
    score_result r title_low artist_low = rankerScoreSpec r title_low artist_low
      ∧ score_result_app r title_low artist_low
          = rankerScoreSpec r title_low artist_low
              + (if title_low = [] then 3 else 0) := by
  refine ⟨rfl, ?_⟩
  by_cases h : title_low = []
  · subst h
    simp only [score_result_app, rankerScoreSpec, List.nil_prefix, if_pos,
      ne_eq, not_true_eq_false, false_and, if_false, if_true]
    omega
  · simp [score_result_app, rankerScoreSpec, h]

/-- C3 counterexample: the decade-suffixed year `"1970s"` is passed as a
year filter by both revisions of `discogs_search` — stripped to
`"1970"` by the `udio_tools.py` revision and passed verbatim by the
`app.py` revision — where the claim says no filter is sent. -/
theorem C3_counterexample :
    discogs_search_yearParam "1970s".data = some "1970".data
      ∧ discogs_search_yearParam_app "1970s".data = some "1970s".data := by
  constructor <;> decide

/-- C3 amended: an empty year yields no filter in either revision; a
non-empty all-digit year is passed unchanged by both; the
`udio_tools.py` revision passes exactly the trailing-`s`-stripped year
whenever that stripped form is a non-empty digit string (so
decade-suffixed years are stripped and passed, not dropped); the
`app.py` revision passes any non-empty year verbatim. -/
theorem C3_amended (year : Str) :
    (year = [] → discogs_search_yearParam year = none
        ∧ discogs_search_yearParam_app year = none)
      ∧ (year ≠ [] → year.all Char.isDigit = true →
          discogs_search_yearParam year = some year
            ∧ discogs_search_yearParam_app year = some year)
      ∧ (∀ y, discogs_search_yearParam year = some y →
          y = rstripS year ∧ isdigitStr y = true)
      ∧ (year ≠ [] → discogs_search_yearParam_app year = some year) := by
  refine ⟨?_, ?_, ?_, ?_⟩
  · rintro rfl
    exact ⟨rfl, rfl⟩
  · intro hne hdig
    have hstr : rstripS year = year := by
      unfold rstripS
      have : year.reverse.dropWhile (fun c => c == 's') = year.reverse := by
        cases hr : year.reverse with
        | nil => rfl
        | cons c t =>
          have hc : c ∈ year := by
            rw [← List.mem_reverse, hr]; exact List.mem_cons_self c t
          have hcd : c.isDigit = true := by
            simpa using List.all_eq_true.mp hdig c hc
          have hcs : (c == 's') = false := by
            refine beq_eq_false_iff_ne.mpr ?_
            intro hEq
            rw [hEq] at hcd
            exact absurd hcd (by decide)
          simp [List.dropWhile_cons, hcs]
      rw [this, List.reverse_reverse]
    have hd : isdigitStr (rstripS year) = true := by
      rw [hstr]
      unfold isdigitStr
      simp [hne, hdig]
    constructor
    · unfold discogs_search_yearParam
      rw [if_neg hne, if_pos hd, hstr]
    · unfold discogs_search_yearParam_app
      rw [if_neg hne]
  · intro y hy
    unfold discogs_search_yearParam at hy
    by_cases hne : year = []
    · rw [if_pos hne] at hy; exact absurd hy (by simp)
    · rw [if_neg hne] at hy
      by_cases hd : isdigitStr (rstripS year) = true
      · rw [if_pos hd] at hy
        have : rstripS year = y := by simpa using hy
        exact ⟨this.symm, this ▸ hd⟩
      · rw [if_neg hd] at hy; exact absurd hy (by simp)
  · intro hne
    unfold discogs_search_yearParam_app
    rw [if_neg hne]

/-- C3 witness: at the concrete plain 4-digit year `"1975"`, both
revisions include the filter `"1975"`. -/
theorem C3_amended_witness :
    discogs_search_yearParam "1975".data = some "1975".data
      ∧ discogs_search_yearParam_app "1975".data = some "1975".data :=
  (C3_amended "1975".data).2.1 (by decide) (by decide)

/-- C5 counterexample: the `udio_tools.py` free-text normalizer
(`read_manual_paste`) splits on commas only, so it maps
`"Bohemian Rhapsody - Queen, 1975"` to title
`"Bohemian Rhapsody - Queen"`, artist `"1975"`, year `""` — not to the
record the claim states — and maps `"Blinding Lights by The Weeknd"` to
a title-only record. -/
theorem C5_counterexample :
    read_manual_paste_line "Bohemian Rhapsody - Queen, 1975".data
        = ("Bohemian Rhapsody - Queen".data, "1975".data, "".data)
      ∧ read_manual_paste_line "Bohemian Rhapsody - Queen, 1975".data
          ≠ ("Bohemian Rhapsody".data, "Queen".data, "1975".data)
      ∧ read_manual_paste_line "Blinding Lights by The Weeknd".data
          = ("Blinding Lights by The Weeknd".data, "".data, "".data) := by
  refine ⟨by decide, by decide, by decide⟩

/-- C5 amended: the claimed mappings hold for the `app.py` revision's
free-text normalizer `parse_line_natively`; the `udio_tools.py`
revision's comma-splitting `read_manual_paste` does not satisfy them. -/
theorem C5_amended :
    parse_line_natively "Bohemian Rhapsody - Queen, 1975".data
        = some ("Bohemian Rhapsody".data, "Queen".data, "1975".data)
      ∧ parse_line_natively "Blinding Lights by The Weeknd".data
          = some ("Blinding Lights".data, "The Weeknd".data, "".data) := by
  constructor <;> decide

/-- C8: the Tag Deriver on
`ReleaseDetail{styles:["Disco","Disco"], genres:["Electronic"],
year:"1978", country:"US", formats:["Vinyl"], labels:["A&M"]}` with
`max_tags = 12` returns exactly
`["disco","electronic","1978","us","vinyl","a and m"]`. -/
theorem C8_tag_deriver_scenario :
    build_tag_list
        ⟨["Disco".data, "Disco".data], ["Electronic".data], .str "1978".data,
          "US".data, ["Vinyl".data], ["A&M".data]⟩ 12
      = ["disco".data, "electronic".data, "1978".data, "us".data,
          "vinyl".data, "a and m".data] := by
  decide

/-- C7: an empty candidate list makes both revisions' `choose_best`
return `None` (no exception is possible: the functions are total), and
a record whose search succeeds with an empty candidate list gets
exactly the sentinel `"NO_MATCH"` as its output row's tag field. -/
theorem C7_empty_candidates :
    (∀ title artist, choose_best [] title artist = none
        ∧ choose_best_app [] title artist = none)
      ∧ (∀ (O : Oracle) (max_tags : Nat) (rec : InputRecord),
          O.search rec.1 rec.2.1 rec.2.2 = Except.ok [] →
          (processRecord O max_tags rec).udio_tags = "NO_MATCH".data) := by
  refine ⟨fun _ _ => ⟨rfl, rfl⟩, ?_⟩
  intro O m rec h
  unfold processRecord
  simp only [h]
  rfl

/-- C7 witness: a concrete record whose search returns no candidates
gets the `NO_MATCH` row. -/
theorem C7_empty_candidates_witness :
    (processRecord ⟨fun _ _ _ => Except.ok [], fun _ => Except.error []⟩ 12
        ("a".data, "b".data, [])).udio_tags = "NO_MATCH".data :=
  C7_empty_candidates.2 _ 12 _ rfl

theorem runLoop_eq (O : Oracle) (m : Nat) (recs : List InputRecord)
    (out : List OutputRow) :
    runLoop O m recs out = out ++ recs.map (processRecord O m) := by
  induction recs generalizing out with
  | nil => simp [runLoop]
  | cons r rest ih => simp [runLoop, ih]

/-- C1: the batch driver produces exactly one output row per input
record, in input order — row `i` is a function of record `i` alone, so
no failure can drop a row or disturb the others — and an external
failure in search or in fetch for a record becomes that record's
`"ERROR: <message>"` sentinel tag instead of aborting the batch. -/
theorem C1_one_row_per_record (O : Oracle) (max_tags : Nat) (recs : List InputRecord) :
    (run_udio_tag_builder O max_tags recs).length = recs.length
      ∧ run_udio_tag_builder O max_tags recs = recs.map (processRecord O max_tags)
      ∧ (∀ rec e, O.search rec.1 rec.2.1 rec.2.2 = Except.error e →
          (processRecord O max_tags rec).udio_tags = "ERROR: ".data ++ e)
      ∧ (∀ rec results best e,
          O.search rec.1 rec.2.1 rec.2.2 = Except.ok results →
          choose_best results rec.1 rec.2.1 = some best →
          O.fetch best.id = Except.error e →
          (processRecord O max_tags rec).udio_tags = "ERROR: ".data ++ e) := by
  refine ⟨?_, ?_, ?_, ?_⟩
  · rw [run_udio_tag_builder, runLoop_eq, List.nil_append, List.length_map]
  · rw [run_udio_tag_builder, runLoop_eq, List.nil_append]
  · intro rec e h
    unfold processRecord
    simp only [h]
    rfl
  · intro rec results best e h1 h2 h3
    unfold processRecord
    simp only [h1, h2, h3]
    rfl

/-- C1 witness: a batch of two records under an always-failing search
keeps both rows, each carrying the error sentinel; a record whose fetch
fails carries the fetch error. -/
theorem C1_one_row_per_record_witness :
    (run_udio_tag_builder ⟨fun _ _ _ => Except.error "boom".data, fun _ => Except.error []⟩ 12
        [("a".data, [], []), ("b".data, [], [])]).length = 2
      ∧ (processRecord ⟨fun _ _ _ => Except.error "boom".data, fun _ => Except.error []⟩ 12
          ("a".data, [], [])).udio_tags = "ERROR: ".data ++ "boom".data
      ∧ (processRecord
            ⟨fun _ _ _ => Except.ok [⟨5, "t".data, 0⟩], fun _ => Except.error "down".data⟩ 12
          ("t".data, [], [])).udio_tags = "ERROR: ".data ++ "down".data :=
  ⟨(C1_one_row_per_record _ 12 _).1,
   (C1_one_row_per_record ⟨fun _ _ _ => Except.error "boom".data, fun _ => Except.error []⟩
      12 []).2.2.1 _ _ rfl,
   (C1_one_row_per_record
      ⟨fun _ _ _ => Except.ok [⟨5, "t".data, 0⟩], fun _ => Except.error "down".data⟩
      12 []).2.2.2 ("t".data, [], []) [⟨5, "t".data, 0⟩] ⟨5, "t".data, 0⟩ _ rfl rfl rfl⟩

theorem maxBy_mem (f : Candidate → Nat) (b : Candidate) (l : List Candidate) :
    maxBy f b l ∈ b :: l := by
  induction l generalizing b with
  | nil => simp [maxBy]
  | cons x rest ih =>
    unfold maxBy
    by_cases h : f x > f b
    · rw [if_pos h]
      have := ih x
      simp only [List.mem_cons] at this ⊢
      tauto
    · rw [if_neg h]
      have := ih b
      simp only [List.mem_cons] at this ⊢
      tauto

theorem maxBy_le_base (f : Candidate → Nat) (b : Candidate) (l : List Candidate) :
    f b ≤ f (maxBy f b l) := by
  induction l generalizing b with
  | nil => exact le_refl _
  | cons y rest ih =>
    unfold maxBy
    by_cases h : f y > f b
    · rw [if_pos h]
      exact le_trans (Nat.le_of_lt h) (ih y)
    · rw [if_neg h]
      exact ih b

theorem maxBy_le_mem (f : Candidate → Nat) (b : Candidate) (l : List Candidate) :
    ∀ x ∈ l, f x ≤ f (maxBy f b l) := by
  induction l generalizing b with
  | nil => intro x hx; exact absurd hx (List.not_mem_nil x)
  | cons y rest ih =>
    intro x hx
    unfold maxBy
    rcases List.mem_cons.mp hx with h1 | h1
    · rw [h1]
      by_cases h : f y > f b
      · rw [if_pos h]
        exact maxBy_le_base f y rest
      · rw [if_neg h]
        exact le_trans (Nat.le_of_not_lt h) (maxBy_le_base f b rest)
    · by_cases h : f y > f b
      · rw [if_pos h]
        exact ih y x h1
      · rw [if_neg h]
        exact ih b x h1

theorem maxBy_le (f : Candidate → Nat) (b : Candidate) (l : List Candidate) :
    ∀ x ∈ b :: l, f x ≤ f (maxBy f b l) := by
  intro x hx
  rcases List.mem_cons.mp hx with h1 | h1
  · rw [h1]
    exact maxBy_le_base f b l
  · exact maxBy_le_mem f b l x h1

theorem maxBy_first (f : Candidate → Nat) (b : Candidate) (l : List Candidate) :
    maxBy f b l = b
      ∨ ∃ l1 l2, l = l1 ++ maxBy f b l :: l2 ∧ f b < f (maxBy f b l)
          ∧ ∀ x ∈ l1, f x < f (maxBy f b l) := by
  induction l generalizing b with
  | nil => left; rfl
  | cons y rest ih =>
    unfold maxBy
    by_cases h : f y > f b
    · rw [if_pos h]
      right
      rcases ih y with h1 | ⟨l1, l2, heq, hlt, hall⟩
      · exact ⟨[], rest, by rw [h1]; rfl, by rw [h1]; exact h, by simp⟩
      · refine ⟨y :: l1, l2, by rw [List.cons_append, ← heq], lt_trans h hlt, ?_⟩
        intro x hx
        rcases List.mem_cons.mp hx with rfl | hx
        · exact hlt
        · exact hall x hx
    · rw [if_neg h]
      rcases ih b with h1 | ⟨l1, l2, heq, hlt, hall⟩
      · left; exact h1
      · right
        refine ⟨y :: l1, l2, by rw [List.cons_append, ← heq], hlt, ?_⟩
        intro x hx
        rcases List.mem_cons.mp hx with rfl | hx
        · exact lt_of_le_of_lt (Nat.le_of_not_lt h) hlt
        · exact hall x hx

theorem maxBy_spec (f : Candidate → Nat) (b : Candidate) (l : List Candidate) :
    maxBy f b l ∈ b :: l
      ∧ (∀ x ∈ b :: l, f x ≤ f (maxBy f b l))
      ∧ ∃ l1 l2, b :: l = l1 ++ maxBy f b l :: l2
          ∧ ∀ x ∈ l1, f x < f (maxBy f b l) := by
  refine ⟨maxBy_mem f b l, maxBy_le f b l, ?_⟩
  rcases maxBy_first f b l with h | ⟨l1, l2, heq, hlt, hall⟩
  · exact ⟨[], l, by rw [h]; rfl, by simp⟩
  · refine ⟨b :: l1, l2, by rw [List.cons_append, ← heq], ?_⟩
    intro x hx
    rcases List.mem_cons.mp hx with rfl | hx
    · exact hlt
    · exact hall x hx

/-- C9: on a non-empty candidate list, both revisions' `choose_best`
select an element of the list (never a fabricated candidate), namely
the first element attaining the maximum score: every candidate scores
at most the chosen one's score, and every candidate strictly before the
chosen occurrence scores strictly less. Determinism for a fixed input
is immediate because `choose_best` is a function of its arguments. -/
theorem C9_choose_best_member_first_max (results : List Candidate)
    (title artist : Str) (hne : results ≠ []) :
    (∃ c, choose_best results title artist = some c ∧ c ∈ results
      ∧ (∀ x ∈ results, score_result x (lower title) (lower artist)
            ≤ score_result c (lower title) (lower artist))
      ∧ ∃ l1 l2, results = l1 ++ c :: l2
          ∧ ∀ x ∈ l1, score_result x (lower title) (lower artist)
              < score_result c (lower title) (lower artist))
    ∧ (∃ c, choose_best_app results title artist = some c ∧ c ∈ results
      ∧ (∀ x ∈ results, score_result_app x (lower title) (lower artist)
            ≤ score_result_app c (lower title) (lower artist))
      ∧ ∃ l1 l2, results = l1 ++ c :: l2
          ∧ ∀ x ∈ l1, score_result_app x (lower title) (lower artist)
              < score_result_app c (lower title) (lower artist)) := by
  match results with
  | [] => exact absurd rfl hne
  | r :: rest =>
    constructor
    · obtain ⟨hmem, hle, hfirst⟩ :=
        maxBy_spec (fun c => score_result c (lower title) (lower artist)) r rest
      exact ⟨_, rfl, hmem, hle, hfirst⟩
    · obtain ⟨hmem, hle, hfirst⟩ :=
        maxBy_spec (fun c => score_result_app c (lower title) (lower artist)) r rest
      exact ⟨_, rfl, hmem, hle, hfirst⟩

/-- C9 witness: on the concrete two-candidate list the characterization
is obtained by applying the theorem (the second candidate wins with
score 8 = 3 + 500 / 100). -/
theorem C9_choose_best_member_first_max_witness :
    (∃ c, choose_best [⟨1, "a".data, 0⟩, ⟨2, "b".data, 500⟩] "b".data [] = some c
      ∧ c ∈ [⟨1, "a".data, 0⟩, ⟨2, "b".data, 500⟩]
      ∧ (∀ x ∈ [⟨1, "a".data, 0⟩, ⟨2, "b".data, 500⟩],
            score_result x (lower "b".data) (lower [])
              ≤ score_result c (lower "b".data) (lower []))
      ∧ ∃ l1 l2, [⟨1, "a".data, 0⟩, ⟨2, "b".data, 500⟩] = l1 ++ c :: l2
          ∧ ∀ x ∈ l1, score_result x (lower "b".data) (lower [])
              < score_result c (lower "b".data) (lower []))
    ∧ (∃ c, choose_best_app [⟨1, "a".data, 0⟩, ⟨2, "b".data, 500⟩] "b".data [] = some c
      ∧ c ∈ [⟨1, "a".data, 0⟩, ⟨2, "b".data, 500⟩]
      ∧ (∀ x ∈ [⟨1, "a".data, 0⟩, ⟨2, "b".data, 500⟩],
            score_result_app x (lower "b".data) (lower [])
              ≤ score_result_app c (lower "b".data) (lower []))
      ∧ ∃ l1 l2, [⟨1, "a".data, 0⟩, ⟨2, "b".data, 500⟩] = l1 ++ c :: l2
          ∧ ∀ x ∈ l1, score_result_app x (lower "b".data) (lower [])
              < score_result_app c (lower "b".data) (lower [])) :=
  C9_choose_best_member_first_max _ "b".data [] (by decide)

theorem natToChars_ne_nil (n : Nat) : natToChars n ≠ [] := by
  unfold natToChars natToCharsAux
  by_cases h : n < 10
  · simp [h]
  · simp [h]

/-- C10: `build_tag_list` omits the year token exactly when the raw
year field is falsy (absent, the number 0, or the empty string), omits
the country token when the country is empty, and converts a non-zero
numeric year to its decimal string before normalization. -/
theorem C10_year_country_omission (r : ReleaseJson) (max_tags : Nat) :
    ((r.year = .absent ∨ r.year = .int 0 ∨ r.year = .str []) →
      build_tag_list r max_tags
        = (clean_tokens (r.styles ++ r.genres
            ++ (if r.country ≠ [] then [r.country] else [])
            ++ r.formats ++ r.labels)).take max_tags)
      ∧ (∀ n, n ≠ 0 → r.year = .int n →
        build_tag_list r max_tags
          = (clean_tokens (r.styles ++ r.genres ++ [natToChars n]
              ++ (if r.country ≠ [] then [r.country] else [])
              ++ r.formats ++ r.labels)).take max_tags)
      ∧ (r.country = [] →
        build_tag_list r max_tags
          = (clean_tokens (r.styles ++ r.genres
              ++ (if yearStr r.year ≠ [] then [yearStr r.year] else [])
              ++ r.formats ++ r.labels)).take max_tags) := by
  refine ⟨?_, ?_, ?_⟩
  · intro h
    unfold build_tag_list tokensOf
    rcases h with h | h | h <;> rw [h] <;> simp [yearStr]
  · intro n hn hy
    unfold build_tag_list tokensOf
    rw [hy]
    simp [yearStr, hn, natToChars_ne_nil n]
  · intro h
    unfold build_tag_list tokensOf
    rw [h]
    simp

/-- C10 witness: a release with year `0` drops the year token (keeping
the country), and a release with numeric year `1978` contributes the
decimal string token. -/
theorem C10_year_country_omission_witness :
    build_tag_list ⟨[], [], .int 0, "US".data, [], []⟩ 5
        = (clean_tokens ([] ++ []
            ++ (if "US".data ≠ ([] : Str) then ["US".data] else [])
            ++ [] ++ [])).take 5
      ∧ build_tag_list ⟨[], [], .int 1978, [], [], []⟩ 5
          = (clean_tokens ([] ++ [] ++ [natToChars 1978]
              ++ (if ([] : Str) ≠ ([] : Str) then [([] : Str)] else [])
              ++ [] ++ [])).take 5 :=
  ⟨(C10_year_country_omission ⟨[], [], .int 0, "US".data, [], []⟩ 5).1
      (Or.inr (Or.inl rfl)),
   (C10_year_country_omission ⟨[], [], .int 1978, [], [], []⟩ 5).2.1 1978
      (by decide) rfl⟩

/-! ## Character-set lemmas for the token pipeline -/

theorem mem_subAmpGo (cs : Str) : ∀ (mode : Bool) (pend : Str) (c : Char),
    c ∈ subAmpGo mode pend cs →
    c ∈ pend ∨ c ∈ cs ∨ c = ' ' ∨ c = 'a' ∨ c = 'n' ∨ c = 'd' := by
  induction cs with
  | nil =>
    intro mode pend c h
    exact Or.inl h
  | cons c0 t ih =>
    intro mode pend c h
    unfold subAmpGo at h
    by_cases h0 : c0 = '&'
    · rw [if_pos h0] at h
      rcases List.mem_cons.mp h with rfl | h
      · exact Or.inr (Or.inr (Or.inl rfl))
      rcases List.mem_cons.mp h with rfl | h
      · exact Or.inr (Or.inr (Or.inr (Or.inl rfl)))
      rcases List.mem_cons.mp h with rfl | h
      · exact Or.inr (Or.inr (Or.inr (Or.inr (Or.inl rfl))))
      rcases List.mem_cons.mp h with rfl | h
      · exact Or.inr (Or.inr (Or.inr (Or.inr (Or.inr rfl))))
      rcases List.mem_cons.mp h with rfl | h
      · exact Or.inr (Or.inr (Or.inl rfl))
      rcases ih true [] c h with h1 | h1 | h1
      · exact absurd h1 (List.not_mem_nil c)
      · exact Or.inr (Or.inl (List.mem_cons_of_mem c0 h1))
      · exact Or.inr (Or.inr h1)
    · rw [if_neg h0] at h
      by_cases hw : isWS c0 = true
      · rw [if_pos hw] at h
        by_cases hm : mode = true
        · rw [if_pos hm] at h
          rcases ih true [] c h with h1 | h1 | h1
          · exact absurd h1 (List.not_mem_nil c)
          · exact Or.inr (Or.inl (List.mem_cons_of_mem c0 h1))
          · exact Or.inr (Or.inr h1)
        · rw [if_neg hm] at h
          rcases ih false (pend ++ [c0]) c h with h1 | h1 | h1
          · rcases List.mem_append.mp h1 with h2 | h2
            · exact Or.inl h2
            · rcases List.mem_cons.mp h2 with rfl | h2
              · exact Or.inr (Or.inl (List.mem_cons_self _ _))
              · exact absurd h2 (List.not_mem_nil c)
          · exact Or.inr (Or.inl (List.mem_cons_of_mem c0 h1))
          · exact Or.inr (Or.inr h1)
      · rw [if_neg hw] at h
        rcases List.mem_append.mp h with h1 | h1
        · exact Or.inl h1
        rcases List.mem_cons.mp h1 with rfl | h1
        · exact Or.inr (Or.inl (List.mem_cons_self _ _))
        rcases ih false [] c h1 with h2 | h2 | h2
        · exact absurd h2 (List.not_mem_nil c)
        · exact Or.inr (Or.inl (List.mem_cons_of_mem c0 h2))
        · exact Or.inr (Or.inr h2)

theorem amp_not_mem_subAmpGo (cs : Str) : ∀ (mode : Bool) (pend : Str),
    '&' ∉ pend → '&' ∉ subAmpGo mode pend cs := by
  induction cs with
  | nil => intro mode pend hp; exact hp
  | cons c0 t ih =>
    intro mode pend hp h
    unfold subAmpGo at h
    by_cases h0 : c0 = '&'
    · rw [if_pos h0] at h
      rcases List.mem_cons.mp h with h1 | h
      · exact absurd h1 (by decide)
      rcases List.mem_cons.mp h with h1 | h
      · exact absurd h1 (by decide)
      rcases List.mem_cons.mp h with h1 | h
      · exact absurd h1 (by decide)
      rcases List.mem_cons.mp h with h1 | h
      · exact absurd h1 (by decide)
      rcases List.mem_cons.mp h with h1 | h
      · exact absurd h1 (by decide)
      exact ih true [] (List.not_mem_nil _) h
    · rw [if_neg h0] at h
      by_cases hw : isWS c0 = true
      · rw [if_pos hw] at h
        by_cases hm : mode = true
        · rw [if_pos hm] at h
          exact ih true [] (List.not_mem_nil _) h
        · rw [if_neg hm] at h
          refine ih false (pend ++ [c0]) ?_ h
          intro h1
          rcases List.mem_append.mp h1 with h2 | h2
          · exact hp h2
          · rcases List.mem_cons.mp h2 with h3 | h3
            · exact h0 h3.symm
            · exact absurd h3 (List.not_mem_nil _)
      · rw [if_neg hw] at h
        rcases List.mem_append.mp h with h1 | h1
        · exact hp h1
        rcases List.mem_cons.mp h1 with h2 | h2
        · exact h0 h2.symm
        · exact ih false [] (List.not_mem_nil _) h2

theorem mem_subSlash (s : Str) (c : Char) (h : c ∈ subSlash s) : c = ' ' ∨ c ∈ s := by
  unfold subSlash at h
  rcases List.mem_map.mp h with ⟨a, ha, hc⟩
  by_cases h1 : a = '(' ∨ a = ')' ∨ a = '/'
  · rw [if_pos h1] at hc
    exact Or.inl hc.symm
  · rw [if_neg h1] at hc
    exact Or.inr (hc ▸ ha)

theorem subSlash_no_paren (s : Str) (c : Char) (h : c ∈ subSlash s) :
    ¬(c = '(' ∨ c = ')' ∨ c = '/') := by
  unfold subSlash at h
  rcases List.mem_map.mp h with ⟨a, _, hc⟩
  by_cases h1 : a = '(' ∨ a = ')' ∨ a = '/'
  · rw [if_pos h1] at hc
    rw [← hc]
    decide
  · rw [if_neg h1] at hc
    rw [← hc]
    exact h1

theorem mem_collapseGo (s : Str) : ∀ (b : Bool) (c : Char),
    c ∈ collapseGo b s → c = ' ' ∨ c ∈ s := by
  induction s with
  | nil => intro b c h; exact absurd h (List.not_mem_nil c)
  | cons c0 t ih =>
    intro b c h
    unfold collapseGo at h
    by_cases hw : isWS c0 = true
    · rw [if_pos hw] at h
      by_cases hb : b = true
      · rw [if_pos hb] at h
        rcases ih true c h with h1 | h1
        · exact Or.inl h1
        · exact Or.inr (List.mem_cons_of_mem c0 h1)
      · rw [if_neg hb] at h
        rcases List.mem_cons.mp h with rfl | h1
        · exact Or.inl rfl
        rcases ih true c h1 with h2 | h2
        · exact Or.inl h2
        · exact Or.inr (List.mem_cons_of_mem c0 h2)
    · rw [if_neg hw] at h
      rcases List.mem_cons.mp h with rfl | h1
      · exact Or.inr (List.mem_cons_self _ _)
      rcases ih false c h1 with h2 | h2
      · exact Or.inl h2
      · exact Or.inr (List.mem_cons_of_mem c0 h2)

theorem mem_strip (s : Str) (c : Char) (h : c ∈ strip s) : c ∈ s := by
  unfold strip rstrip lstrip at h
  rw [List.mem_reverse] at h
  have h2 := (List.dropWhile_sublist isWS).mem h
  rw [List.mem_reverse] at h2
  exact (List.dropWhile_sublist isWS).mem h2

theorem lower_fixed_mem (s : Str) : ∀ c ∈ lower s, lowChar c = c := by
  intro c hc
  rcases List.mem_map.mp hc with ⟨a, _, rfl⟩
  exact lowChar_idem a

theorem normTail_lower_fixed (s : Str) (hs : ∀ c ∈ s, lowChar c = c) :
    ∀ c ∈ normTail s, lowChar c = c := by
  intro c hc
  unfold normTail collapseWS subAmp at hc
  have h1 := mem_strip _ _ hc
  rcases mem_collapseGo _ _ _ h1 with rfl | h2
  · decide
  rcases mem_subSlash _ _ h2 with rfl | h3
  · decide
  rcases mem_subAmpGo _ _ _ _ h3 with h4 | h4 | h4 | h4 | h4 | h4
  · exact absurd h4 (List.not_mem_nil c)
  · exact hs c h4
  · rw [h4]; decide
  · rw [h4]; decide
  · rw [h4]; decide
  · rw [h4]; decide

theorem lower_eq_self (s : Str) (h : ∀ c ∈ s, lowChar c = c) : lower s = s :=
  map_eq_self_of_mem h

/-! ## Fixed-point lemmas for the token pipeline -/

theorem subAmpGo_id (cs : Str) : ∀ pend : Str, '&' ∉ cs →
    subAmpGo false pend cs = pend ++ cs := by
  induction cs with
  | nil => intro pend _; simp [subAmpGo]
  | cons c0 t ih =>
    intro pend h
    have h0 : ¬(c0 = '&') := fun he => h (he ▸ List.mem_cons_self _ _)
    have ht : '&' ∉ t := fun hm => h (List.mem_cons_of_mem _ hm)
    unfold subAmpGo
    rw [if_neg h0]
    by_cases hw : isWS c0 = true
    · rw [if_pos hw, if_neg Bool.false_ne_true, ih (pend ++ [c0]) ht]
      simp
    · rw [if_neg hw, ih [] ht]
      simp

theorem subAmp_id (cs : Str) (h : '&' ∉ cs) : subAmp cs = cs := by
  unfold subAmp
  rw [subAmpGo_id cs [] h]
  rfl

theorem subSlash_id (cs : Str) (h : ∀ c ∈ cs, ¬(c = '(' ∨ c = ')' ∨ c = '/')) :
    subSlash cs = cs :=
  map_eq_self_of_mem (fun c hc => if_neg (h c hc))

theorem collapseGo_props (cs : Str) : ∀ b : Bool,
    (∀ c ∈ collapseGo b cs, isWS c = true → c = ' ')
      ∧ List.Chain' (fun x y => ¬(isWS x = true ∧ isWS y = true)) (collapseGo b cs)
      ∧ (b = true → ∀ c, (collapseGo b cs).head? = some c → isWS c = false) := by
  induction cs with
  | nil =>
    intro b
    refine ⟨?_, ?_, ?_⟩ <;> simp [collapseGo]
  | cons c0 t ih =>
    intro b
    unfold collapseGo
    by_cases hw : isWS c0 = true
    · rw [if_pos hw]
      by_cases hb : b = true
      · rw [if_pos hb]
        obtain ⟨p1, p2, p3⟩ := ih true
        exact ⟨p1, p2, fun _ => p3 rfl⟩
      · rw [if_neg hb]
        obtain ⟨p1, p2, p3⟩ := ih true
        refine ⟨?_, ?_, ?_⟩
        · intro c hc hcw
          rcases List.mem_cons.mp hc with rfl | hc
          · rfl
          · exact p1 c hc hcw
        · rw [List.chain'_cons']
          refine ⟨?_, p2⟩
          intro hd hh hcontra
          have := p3 rfl hd (Option.mem_def.mp hh)
          rw [this] at hcontra
          exact absurd hcontra.2 (by simp)
        · intro hb'
          exact absurd hb' hb
    · rw [if_neg hw]
      obtain ⟨p1, p2, p3⟩ := ih false
      refine ⟨?_, ?_, ?_⟩
      · intro c hc hcw
        rcases List.mem_cons.mp hc with rfl | hc
        · exact absurd hcw hw
        · exact p1 c hc hcw
      · rw [List.chain'_cons']
        refine ⟨?_, p2⟩
        intro hd _ hcontra
        exact hw hcontra.1
      · intro _ c hc
        have : c0 = c := by simpa using hc
        rw [← this]
        exact Bool.eq_false_iff.mpr hw

theorem collapseGo_id (cs : Str) : ∀ b : Bool,
    (∀ c ∈ cs, isWS c = true → c = ' ') →
    List.Chain' (fun x y => ¬(isWS x = true ∧ isWS y = true)) cs →
    (b = true → ∀ c, cs.head? = some c → isWS c = false) →
    collapseGo b cs = cs := by
  induction cs with
  | nil => intro b _ _ _; rfl
  | cons c0 t ih =>
    intro b hall hchain hhead
    unfold collapseGo
    by_cases hw : isWS c0 = true
    · have hb : b = false := by
        rcases Bool.eq_false_or_eq_true b with h | h
        · exact absurd (hhead h c0 rfl) (by simp [hw])
        · exact h
      rw [if_pos hw, hb, if_neg Bool.false_ne_true]
      have hc0 : c0 = ' ' := hall c0 (List.mem_cons_self _ _) hw
      have ht : collapseGo true t = t := by
        apply ih true
        · intro c hc hcw
          exact hall c (List.mem_cons_of_mem _ hc) hcw
        · exact (List.chain'_cons'.mp hchain).2
        · intro _ c hc
          have hr := (List.chain'_cons'.mp hchain).1 c (Option.mem_def.mpr hc)
          rcases Bool.eq_false_or_eq_true (isWS c) with h | h
          · exact absurd ⟨hw, h⟩ hr
          · exact h
      rw [ht, hc0]
    · rw [if_neg hw]
      congr 1
      apply ih false
      · intro c hc hcw
        exact hall c (List.mem_cons_of_mem _ hc) hcw
      · exact (List.chain'_cons'.mp hchain).2
      · intro hfalse
        exact absurd hfalse Bool.false_ne_true

theorem dropWhile_ws_eq_self (cs : Str)
    (h : ∀ c, cs.head? = some c → isWS c = false) : cs.dropWhile isWS = cs := by
  cases cs with
  | nil => rfl
  | cons c t => simp [List.dropWhile_cons, h c rfl]

theorem lstrip_eq_self (cs : Str)
    (h : ∀ c, cs.head? = some c → isWS c = false) : lstrip cs = cs :=
  dropWhile_ws_eq_self cs h

theorem rstrip_eq_self (cs : Str)
    (h : ∀ c, cs.getLast? = some c → isWS c = false) : rstrip cs = cs := by
  unfold rstrip
  rw [dropWhile_ws_eq_self cs.reverse
    (fun c hc => h c (by rwa [List.head?_reverse] at hc)), List.reverse_reverse]

theorem strip_eq_self (cs : Str)
    (h1 : ∀ c, cs.head? = some c → isWS c = false)
    (h2 : ∀ c, cs.getLast? = some c → isWS c = false) : strip cs = cs := by
  unfold strip
  rw [lstrip_eq_self cs h1, rstrip_eq_self cs h2]

theorem rstrip_prefix (x : Str) : rstrip x <+: x := by
  unfold rstrip
  have := List.reverse_prefix.mpr (List.dropWhile_suffix (l := x.reverse) isWS)
  rwa [List.reverse_reverse] at this

theorem lstrip_suffix (x : Str) : lstrip x <:+ x := List.dropWhile_suffix isWS

theorem chain'_of_suffix {R : Char → Char → Prop} {l₁ l₂ : Str}
    (h : l₁ <:+ l₂) (hc : List.Chain' R l₂) : List.Chain' R l₁ := by
  obtain ⟨t, rfl⟩ := h
  exact (List.chain'_append.mp hc).2.1

theorem chain'_of_prefix {R : Char → Char → Prop} {l₁ l₂ : Str}
    (h : l₁ <+: l₂) (hc : List.Chain' R l₂) : List.Chain' R l₁ := by
  obtain ⟨t, rfl⟩ := h
  exact (List.chain'_append.mp hc).1

theorem strip_chain' {R : Char → Char → Prop} (x : Str) (hc : List.Chain' R x) :
    List.Chain' R (strip x) := by
  have h1 := chain'_of_suffix (lstrip_suffix x) hc
  have h2 := rstrip_prefix (lstrip x)
  exact chain'_of_prefix h2 h1

theorem strip_head_not_ws (s : Str) :
    ∀ c, (strip s).head? = some c → isWS c = false := by
  intro c hc
  have hpre : strip s <+: lstrip s := rstrip_prefix (lstrip s)
  obtain ⟨t, ht⟩ := hpre
  have hh : (lstrip s).head? = some c := by
    rw [← ht]
    cases hb : strip s with
    | nil => rw [hb] at hc; simp at hc
    | cons d u =>
      rw [hb] at hc
      simp only [List.head?_cons, Option.some.injEq] at hc
      simp [hc]
  have h2 := List.head?_dropWhile_not isWS s
  unfold lstrip at hh
  rw [hh] at h2
  simpa using h2

theorem strip_getLast_not_ws (s : Str) :
    ∀ c, (strip s).getLast? = some c → isWS c = false := by
  intro c hc
  unfold strip rstrip at hc
  rw [← List.head?_reverse, List.reverse_reverse] at hc
  have h2 := List.head?_dropWhile_not isWS (lstrip s).reverse
  rw [hc] at h2
  simpa using h2

theorem normTail_props (s : Str) :
    ('&' ∉ normTail s)
      ∧ (∀ c ∈ normTail s, ¬(c = '(' ∨ c = ')' ∨ c = '/'))
      ∧ (∀ c ∈ normTail s, isWS c = true → c = ' ')
      ∧ List.Chain' (fun x y => ¬(isWS x = true ∧ isWS y = true)) (normTail s) := by
  refine ⟨?_, ?_, ?_, ?_⟩
  · intro h
    unfold normTail collapseWS subAmp at h
    have h1 := mem_strip _ _ h
    rcases mem_collapseGo _ _ _ h1 with h2 | h2
    · exact absurd h2 (by decide)
    rcases mem_subSlash _ _ h2 with h3 | h3
    · exact absurd h3 (by decide)
    · exact amp_not_mem_subAmpGo s false [] (List.not_mem_nil _) h3
  · intro c hc hor
    unfold normTail collapseWS subAmp at hc
    have h1 := mem_strip _ _ hc
    rcases mem_collapseGo _ _ _ h1 with rfl | h2
    · exact absurd hor (by decide)
    · exact subSlash_no_paren _ _ h2 hor
  · intro c hc hw
    unfold normTail collapseWS at hc
    have h1 := mem_strip _ _ hc
    exact (collapseGo_props (subSlash (subAmp s)) false).1 c h1 hw
  · unfold normTail collapseWS
    exact strip_chain' _ ((collapseGo_props (subSlash (subAmp s)) false).2.1)

theorem normTail_strip (s : Str) : strip (normTail s) = normTail s := by
  refine strip_eq_self _ ?_ ?_
  · unfold normTail
    exact strip_head_not_ws _
  · unfold normTail
    exact strip_getLast_not_ws _

theorem normTail_idem (s : Str) : normTail (normTail s) = normTail s := by
  obtain ⟨hamp, hpar, hws, hchain⟩ := normTail_props s
  have e1 : subAmp (normTail s) = normTail s := subAmp_id _ hamp
  have e2 : subSlash (normTail s) = normTail s := subSlash_id _ hpar
  have e3 : collapseWS (normTail s) = normTail s := by
    unfold collapseWS
    exact collapseGo_id _ false hws hchain (fun h => absurd h Bool.false_ne_true)
  show strip (collapseWS (subSlash (subAmp (normTail s)))) = normTail s
  rw [e1, e2, e3, normTail_strip]

theorem normTail_lower (s : Str) (hs : ∀ c ∈ s, lowChar c = c) :
    lower (normTail s) = normTail s :=
  lower_eq_self _ (normTail_lower_fixed s hs)

/-! ## Deduplication lemmas -/

theorem cleanGo_not_mem_seen : ∀ (ts seen : List Str) (x : Str),
    x ∈ cleanGo seen ts → x ∉ seen := by
  intro ts
  induction ts with
  | nil =>
    intro seen x h
    exact absurd h (List.not_mem_nil x)
  | cons t rest ih =>
    intro seen x h
    unfold cleanGo at h
    by_cases h1 : lower (strip t) = []
    · rw [if_pos h1] at h
      exact ih seen x h
    · rw [if_neg h1] at h
      by_cases h2 : normTail (lower (strip t)) ∈ seen
      · rw [if_pos h2] at h
        exact ih seen x h
      · rw [if_neg h2] at h
        rcases List.mem_cons.mp h with rfl | h3
        · exact h2
        · intro hx
          exact ih _ x h3 (List.mem_cons_of_mem _ hx)

theorem cleanGo_pairwise : ∀ (ts seen : List Str),
    (cleanGo seen ts).Pairwise (· ≠ ·) := by
  intro ts
  induction ts with
  | nil => intro seen; simp [cleanGo]
  | cons t rest ih =>
    intro seen
    unfold cleanGo
    by_cases h1 : lower (strip t) = []
    · rw [if_pos h1]
      exact ih seen
    · rw [if_neg h1]
      by_cases h2 : normTail (lower (strip t)) ∈ seen
      · rw [if_pos h2]
        exact ih seen
      · rw [if_neg h2]
        refine List.pairwise_cons.mpr ⟨?_, ih _⟩
        intro x hx he
        exact cleanGo_not_mem_seen rest _ x hx (he ▸ List.mem_cons_self _ _)

theorem cleanGo_shape : ∀ (ts seen : List Str) (x : Str), x ∈ cleanGo seen ts →
    ∃ t, lower (strip t) ≠ [] ∧ x = normTail (lower (strip t)) := by
  intro ts
  induction ts with
  | nil =>
    intro seen x h
    exact absurd h (List.not_mem_nil x)
  | cons t rest ih =>
    intro seen x h
    unfold cleanGo at h
    by_cases h1 : lower (strip t) = []
    · rw [if_pos h1] at h
      exact ih seen x h
    · rw [if_neg h1] at h
      by_cases h2 : normTail (lower (strip t)) ∈ seen
      · rw [if_pos h2] at h
        exact ih seen x h
      · rw [if_neg h2] at h
        rcases List.mem_cons.mp h with rfl | h3
        · exact ⟨t, h1, rfl⟩
        · exact ih _ x h3

theorem cleanGo_fixpoint : ∀ (out seen : List Str),
    (∀ x ∈ out, lower (strip x) = x ∧ x ≠ [] ∧ normTail x = x) →
    out.Pairwise (· ≠ ·) →
    (∀ x ∈ out, x ∉ seen) →
    cleanGo seen out = out := by
  intro out
  induction out with
  | nil => intro seen _ _ _; rfl
  | cons u rest ih =>
    intro seen hfix hpw hseen
    obtain ⟨hls, hne, hnt⟩ := hfix u (List.mem_cons_self _ _)
    unfold cleanGo
    rw [hls, if_neg hne, hnt, if_neg (hseen u (List.mem_cons_self _ _))]
    congr 1
    apply ih (u :: seen)
    · intro x hx
      exact hfix x (List.mem_cons_of_mem _ hx)
    · exact (List.pairwise_cons.mp hpw).2
    · intro x hx
      intro hmem
      rcases List.mem_cons.mp hmem with rfl | hmem
      · exact (List.pairwise_cons.mp hpw).1 x hx rfl
      · exact hseen x (List.mem_cons_of_mem _ hx) hmem

theorem cleanGo_eq_dedupGo : ∀ (ts seen : List Str),
    cleanGo seen ts = dedupGo seen (ts.filterMap normTok) := by
  intro ts
  induction ts with
  | nil => intro seen; rfl
  | cons t rest ih =>
    intro seen
    by_cases h1 : lower (strip t) = []
    · have hnt : normTok t = none := by
        unfold normTok
        rw [if_pos h1]
      simp only [List.filterMap_cons, hnt]
      unfold cleanGo
      rw [if_pos h1]
      exact ih seen
    · have hnt : normTok t = some (normTail (lower (strip t))) := by
        unfold normTok
        rw [if_neg h1]
      simp only [List.filterMap_cons, hnt]
      unfold cleanGo dedupGo
      rw [if_neg h1]
      by_cases h2 : normTail (lower (strip t)) ∈ seen
      · rw [if_pos h2, if_pos h2]
        exact ih seen
      · rw [if_neg h2, if_neg h2]
        rw [ih _]

/-- C4: for every release and positive `max_tags`, `build_tag_list`
returns at most `max_tags` tokens, all lower-cased, pairwise distinct —
hence also pairwise distinct case-insensitively (no two tokens agree
even after lower-casing). -/
theorem C4_tag_list_bounded_nodup (r : ReleaseJson) (max_tags : Nat)
    (hpos : 0 < max_tags) :
    (build_tag_list r max_tags).length ≤ max_tags
      ∧ (build_tag_list r max_tags).Pairwise (· ≠ ·)
      ∧ (∀ t ∈ build_tag_list r max_tags, lower t = t)
      ∧ (build_tag_list r max_tags).Pairwise (fun a b => lower a ≠ lower b) := by
  have hlow : ∀ t ∈ build_tag_list r max_tags, lower t = t := by
    intro t ht
    have ht2 : t ∈ clean_tokens (tokensOf r) :=
      (List.take_sublist max_tags (clean_tokens (tokensOf r))).mem ht
    obtain ⟨t0, _, rfl⟩ := cleanGo_shape (tokensOf r) [] t ht2
    exact normTail_lower _ (lower_fixed_mem _)
  have hpw : (build_tag_list r max_tags).Pairwise (· ≠ ·) :=
    (cleanGo_pairwise (tokensOf r) []).sublist
      (List.take_sublist max_tags (clean_tokens (tokensOf r)))
  refine ⟨List.length_take_le max_tags _, hpw, hlow, ?_⟩
  refine hpw.imp_of_mem ?_
  intro a b ha hb hne
  rw [hlow a ha, hlow b hb]
  exact hne

/-- C4 witness: the bounds and distinctness hold at the concrete
release of the Tag Deriver scenario with `max_tags = 12`. -/
theorem C4_tag_list_bounded_nodup_witness :
    (0 : Nat) < 12
      ∧ ((build_tag_list
            ⟨["Disco".data, "Disco".data], ["Electronic".data],
              .str "1978".data, "US".data, ["Vinyl".data], ["A&M".data]⟩
            12).length ≤ 12
        ∧ (build_tag_list
            ⟨["Disco".data, "Disco".data], ["Electronic".data],
              .str "1978".data, "US".data, ["Vinyl".data], ["A&M".data]⟩
            12).Pairwise (· ≠ ·)
        ∧ (∀ t ∈ build_tag_list
            ⟨["Disco".data, "Disco".data], ["Electronic".data],
              .str "1978".data, "US".data, ["Vinyl".data], ["A&M".data]⟩
            12, lower t = t)
        ∧ (build_tag_list
            ⟨["Disco".data, "Disco".data], ["Electronic".data],
              .str "1978".data, "US".data, ["Vinyl".data], ["A&M".data]⟩
            12).Pairwise (fun a b => lower a ≠ lower b)) :=
  ⟨by decide,
   C4_tag_list_bounded_nodup
     ⟨["Disco".data, "Disco".data], ["Electronic".data],
       .str "1978".data, "US".data, ["Vinyl".data], ["A&M".data]⟩
     12 (by decide)⟩

/-- C6 counterexample: `clean_tokens` is not idempotent. The token
`"("` survives the emptiness check (taken before the substitutions),
then normalizes to the empty token, which a second pass drops: both
revisions map `["("]` to `[""]` but `[""]` to `[]`. -/
theorem C6_counterexample :
    clean_tokens ["(".data] = [[]]
      ∧ clean_tokens (clean_tokens ["(".data]) = []
      ∧ clean_tokens (clean_tokens ["(".data]) ≠ clean_tokens ["(".data]
      ∧ clean_tokens_app (clean_tokens_app ["(".data]) ≠ clean_tokens_app ["(".data] := by
  refine ⟨by decide, by decide, by decide, by decide⟩

/-- C6 amended: re-running `clean_tokens` on its own output returns the
output unchanged, provided the output contains no empty token (the sole
failure mode: tokens made only of whitespace, parentheses and slashes
normalize to the empty token, which a second pass removes); moreover the
`app.py` revision computes the same function as the `udio_tools.py`
one, so the same holds for it. -/
theorem C6_cleanTokens_idempotent (l : List Str) (h : [] ∉ clean_tokens l) :
    clean_tokens (clean_tokens l) = clean_tokens l
      ∧ clean_tokens_app l = clean_tokens l := by
  constructor
  · unfold clean_tokens
    apply cleanGo_fixpoint
    · intro x hx
      have hxne : x ≠ [] := by
        intro he
        exact h (he ▸ hx)
      obtain ⟨t, h1, rfl⟩ := cleanGo_shape l [] x hx
      refine ⟨?_, hxne, normTail_idem _⟩
      rw [normTail_strip]
      exact normTail_lower _ (lower_fixed_mem _)
    · exact cleanGo_pairwise l []
    · intro x _
      exact List.not_mem_nil x
  · exact (cleanGo_eq_dedupGo l []).symm

/-- C6 witness: on a list whose cleaned output has no empty token,
re-cleaning is the identity and both revisions agree. -/
theorem C6_cleanTokens_idempotent_witness :
    clean_tokens (clean_tokens ["Disco".data, "disco ".data, "A&M".data])
        = clean_tokens ["Disco".data, "disco ".data, "A&M".data]
      ∧ clean_tokens_app ["Disco".data, "disco ".data, "A&M".data]
          = clean_tokens ["Disco".data, "disco ".data, "A&M".data] :=
  C6_cleanTokens_idempotent ["Disco".data, "disco ".data, "A&M".data] (by decide)

end Udio
